import Mathlib

/-!
Verification of the LocoTranslator PO-file translation loop (src/app.py)
against its natural-language specification.  Strings are modelled as
`List Char`; the remote translation backend is modelled as an opaque
function returning a `BackendResult`.  Letters mean ASCII letters
(`[a-zA-Z]`), matching the regexes used by the source.

The file is organised as definitions first (the shallow embedding of
src/app.py), then theorems.
-/

namespace LocoTranslator

/-! ## Characters and strings -/

/-- ASCII letter test, the `[a-zA-Z]` character class of the source regexes. -/
def isAsciiLetter (c : Char) : Bool :=
  ('a' ≤ c && c ≤ 'z') || ('A' ≤ c && c ≤ 'Z')

/-- ASCII whitespace stripped by Python `str.strip()`. -/
def isPySpace (c : Char) : Bool :=
  c = ' ' || c = '\t' || c = '\n' || c = '\x0b' || c = '\x0c' || c = '\r'

/-- Python `str.strip()`: remove leading and trailing whitespace. -/
def pyStrip (s : List Char) : List Char :=
  ((s.dropWhile isPySpace).reverse.dropWhile isPySpace).reverse

/-- `needle` is a prefix of `hay` (both as character lists). -/
def startsWithList : List Char → List Char → Bool
  | [], _ => true
  | _ :: _, [] => false
  | n :: ns, h :: hs => n == h && startsWithList ns hs

/-- `needle` occurs as a contiguous substring of `hay`, Python's `in`. -/
def containsList (needle : List Char) : List Char → Bool
  | [] => startsWithList needle []
  | c :: hs => startsWithList needle (c :: hs) || containsList needle hs

/-- `suffix` is a suffix of `s`, Python's `str.endswith`. -/
def endsWithList (suffix : List Char) (s : List Char) : Bool :=
  startsWithList suffix.reverse s.reverse

/-- ASCII lower-casing of one character, as done by `str.lower()` on ASCII. -/
def pyLower (c : Char) : Char :=
  if 'A' ≤ c && c ≤ 'Z' then Char.ofNat (c.toNat + 32) else c

/-- `pat in hay.lower()` for an already-lower-case ASCII `pat`. -/
def lowerContains (hay pat : List Char) : Bool :=
  containsList pat (hay.map pyLower)

/-! ## Decimal rendering and parsing (JSON integers) -/

/-- Decimal digit character for a value below ten. -/
def digitChar (n : Nat) : Char :=
  match n with
  | 0 => '0' | 1 => '1' | 2 => '2' | 3 => '3' | 4 => '4'
  | 5 => '5' | 6 => '6' | 7 => '7' | 8 => '8' | _ => '9'

/-- Numeric value of a decimal digit character. -/
def charVal (c : Char) : Nat :=
  match c with
  | '0' => 0 | '1' => 1 | '2' => 2 | '3' => 3 | '4' => 4
  | '5' => 5 | '6' => 6 | '7' => 7 | '8' => 8 | _ => 9

/-- Fuel-driven decimal rendering of a natural number (most significant digit
first); `fuel > n` always suffices. -/
def natToDecimalAux : Nat → Nat → List Char
  | 0, _ => []
  | fuel + 1, n =>
    if n < 10 then [digitChar n]
    else natToDecimalAux fuel (n / 10) ++ [digitChar (n % 10)]

/-- Decimal rendering of a natural number, as Python prints an `int`. -/
def natToDecimal (n : Nat) : List Char := natToDecimalAux (n + 1) n

/-- Decimal parsing of a digit string, as `json.load` reads an integer. -/
def decimalToNat (s : List Char) : Nat :=
  s.foldl (fun a c => a * 10 + charVal c) 0

/-! ## Progress file (src/app.py lines 85-109) -/

/-- src/app.py lines 100-109 (`save_progress`): the exact bytes
`json.dump({"index": current_index}, file)` writes to the progress file. -/
def save_progress (current_index : Nat) : List Char :=
  "\x7b\"index\": ".data ++ natToDecimal current_index ++ "\x7d".data

/-- src/app.py lines 85-98 (`load_progress`) composed with
`progress.get("index", 0)` from line 175: a missing file yields 0, an
existing file written by `save_progress` yields its stored index (the
ten-character prefix and the closing brace of the JSON object are removed
and the digits in between are parsed). -/
def load_progress_index : Option (List Char) → Nat
  | none => 0
  | some s => decimalToNat ((s.drop 10).dropLast)

/-! ## Elapsed-time report (src/app.py line 223) -/

/-- src/app.py line 223: the final report
`print(f"Total translation time: {overall_elapsed:.2f} seconds.")`,
modelled for whole-second elapsed values (`{x:.2f}` renders an integral
number of seconds with the two decimal places `.00`). -/
def formatTotalTime (wholeSeconds : Nat) : List Char :=
  "Total translation time: ".data ++ natToDecimal wholeSeconds ++ ".00 seconds.".data

/-! ## Output file name (src/app.py lines 167-171) -/

/-- Python `str.replace(".po", new)`: replace every non-overlapping
occurrence of `".po"`, scanning left to right. -/
def replaceAllPo (new : List Char) : List Char → List Char
  | '.' :: 'p' :: 'o' :: rest => new ++ replaceAllPo new rest
  | c :: rest => c :: replaceAllPo new rest
  | [] => []

/-- src/app.py lines 167-171: the translated output path is
`po_file_path.replace(".po", "_translated.po")` when the input path ends
with `".po"`, and `po_file_path + "_translated.po"` otherwise. -/
def translated_file_name (path : List Char) : List Char :=
  if endsWithList ".po".data path then replaceAllPo "_translated.po".data path
  else path ++ "_translated.po".data

/-! ## Entry classifier (src/app.py lines 185-192) -/

/-- Python `s.startswith("#")`. -/
def startsWithHash : List Char → Bool
  | '#' :: _ => true
  | _ => false

/-- `re.match(r"^[^a-zA-Z]*$", s)` is truthy.  Python's `$` matches at the
end of the string or just before a newline that is the last character;
since `'\n'` itself is not a letter, both cases collapse to: no character
of `s` is an ASCII letter. -/
def matchNoLetters (s : List Char) : Bool :=
  s.all (fun c => !isAsciiLetter c)

/-- `re.match(r"^%[a-zA-Z]*$", s)` is truthy: `s` is a percent sign followed
by letters up to the position where `$` matches.  Python's `$` matches at
the end of the string or just before a newline that is the last character,
so a single trailing `'\n'` after the letters is also accepted. -/
def matchPercentOnly : List Char → Bool
  | c :: rest =>
    c == '%' &&
      (rest.all isAsciiLetter ||
        (rest.getLast? == some '\n' && rest.dropLast.all isAsciiLetter))
  | [] => false

/-- `re.search(r"[a-zA-Z]", s)` is truthy: some character is an ASCII letter. -/
def searchLetter (s : List Char) : Bool :=
  s.any isAsciiLetter

/-- src/app.py lines 187-190: the skip condition applied to a non-empty
`msgid` (comment marker after stripping, letterless, bare placeholder, or
no letter found). -/
def classifierSkip (msgid : List Char) : Bool :=
  startsWithHash (pyStrip msgid) || matchNoLetters msgid ||
    matchPercentOnly msgid || !searchLetter msgid

/-- src/app.py lines 185-192 combined: an entry is skipped (translation
never attempted) when `msgid` is empty (the `if entry.msgid:` guard) or
the classifier skip condition holds. -/
def entrySkipped (msgid : List Char) : Bool :=
  msgid.isEmpty || classifierSkip msgid

/-- The bare-placeholder pattern exactly as the spec words it: a percent
sign followed only by letters, and nothing else.  Stated for the
refinement comparison with `matchPercentOnly`. -/
def specPercentOnly : List Char → Bool
  | c :: rest => c == '%' && rest.all isAsciiLetter
  | [] => false

/-- The skip classification exactly as the spec (and claim C4) words it:
empty, comment marker after trimming, no letters at all, or the bare
placeholder pattern with nothing else.  Stated for the refinement
comparison with `entrySkipped`. -/
def specClassifierSkip (msgid : List Char) : Bool :=
  msgid.isEmpty || startsWithHash (pyStrip msgid) || !searchLetter msgid ||
    specPercentOnly msgid

/-- The bare-placeholder pattern the code actually implements: the spec's
pattern, also accepting a single trailing newline (because Python's `$`
anchor matches just before a final newline). -/
def amendedPercentOnly (s : List Char) : Bool :=
  specPercentOnly s ||
    (s.getLast? == some '\n' && specPercentOnly s.dropLast)

/-- The amended skip classification: the spec's wording with the
bare-placeholder pattern widened by the trailing-newline case. -/
def amendedClassifierSkip (msgid : List Char) : Bool :=
  msgid.isEmpty || startsWithHash (pyStrip msgid) || !searchLetter msgid ||
    amendedPercentOnly msgid

/-! ## Entries and the translation invoker (src/app.py lines 34-83) -/

/-- One catalog entry as the loop reads it from polib: singular source
`msgid`, plural source `msgid_plural` (empty list when absent, matching
polib's empty string and the `if entry.msgid_plural:` truthiness test),
singular target `msgstr`, plural targets `msgstr_plural` as an association
list from plural index to target string, and the source line number. -/
structure Entry where
  msgid : List Char
  msgid_plural : List Char
  msgstr : List Char
  msgstr_plural : List (Nat × List Char)
  linenum : Nat
deriving DecidableEq

/-- Outcome of one call to the remote backend
(`openai.ChatCompletion.create`): the raw response content, a
`RateLimitError`, or any other `OpenAIError`. -/
inductive BackendResult where
  | success (content : List Char)
  | rateLimit
  | otherError (msg : List Char)

/-- First refusal phrase checked by src/app.py line 70. -/
def refusalPhrase1 : List Char := "no need to be corrected".data

/-- Second refusal phrase checked by src/app.py line 71. -/
def refusalPhrase2 : List Char := "reference to".data

/-- src/app.py lines 70-72: the stripped response is rejected when it
contains either refusal phrase case-insensitively or contains no ASCII
letter at all. -/
def invalidTranslation (t : List Char) : Bool :=
  lowerContains t refusalPhrase1 || lowerContains t refusalPhrase2 ||
    matchNoLetters t

/-- src/app.py lines 34-83 (`translate_string`): on a successful backend
response the content is stripped and validated, falling back to the
original text when rejected; a rate limit or any other backend error also
falls back to the original text. -/
def translate_string (b : BackendResult) (text : List Char) : List Char :=
  match b with
  | .success content =>
    let translation := pyStrip content
    if invalidTranslation translation then text else translation
  | .rateLimit => text
  | .otherError _ => text

/-- The returned string is a backend translation that passed validation:
it is the stripped content of a successful response that was not rejected. -/
def validTranslationOf (b : BackendResult) (v : List Char) : Prop :=
  ∃ content, b = BackendResult.success content ∧ v = pyStrip content ∧
    invalidTranslation (pyStrip content) = false

/-! ## Plural-form processing (src/app.py lines 196-214) -/

/-- src/app.py line 201: index 0 uses `msgid`, every other index uses
`msgid_plural`. -/
def sourceForIndex (e : Entry) (idx : Nat) : List Char :=
  if idx = 0 then e.msgid else e.msgid_plural

/-- `entry.msgstr_plural[idx] = v`: update the value stored at an existing
key of the association list. -/
def setAssoc (m : List (Nat × List Char)) (k : Nat) (v : List Char) :
    List (Nat × List Char) :=
  m.map fun p => if p.1 = k then (k, v) else p

/-- Dictionary access `m[k]` on the association list (first match). -/
def alookup (k : Nat) : List (Nat × List Char) → Option (List Char)
  | [] => none
  | p :: rest => if p.1 = k then some p.2 else alookup k rest

/-- Insert a number into an ascending list, keeping it ascending. -/
def insertSorted (n : Nat) : List Nat → List Nat
  | [] => [n]
  | m :: ms => if n ≤ m then n :: m :: ms else m :: insertSorted n ms

/-- `sorted(keys)`: ascending insertion sort. -/
def sortNat (l : List Nat) : List Nat := l.foldr insertSorted []

/-- `sorted(entry.msgstr_plural.keys())` from src/app.py line 199. -/
def entryKeys (e : Entry) : List Nat :=
  sortNat (e.msgstr_plural.map Prod.fst)

/-- src/app.py lines 199-209, one iteration: the accumulator carries the
plural-target mapping and the list of source texts passed to the invoker
so far; a form whose source starts with `'#'` after stripping is skipped,
every other form is translated and stored. -/
def processPluralStep (backend : List Char → BackendResult) (e : Entry)
    (acc : List (Nat × List Char) × List (List Char)) (idx : Nat) :
    List (Nat × List Char) × List (List Char) :=
  let source := sourceForIndex e idx
  if startsWithHash (pyStrip source) then acc
  else (setAssoc acc.1 idx (translate_string (backend source) source),
    acc.2 ++ [source])

/-- src/app.py lines 196-214: processing of one eligible entry.  Returns
the updated entry together with the list of source texts passed to the
translation invoker.  A plural entry (`if entry.msgid_plural:`) iterates
its sorted plural indices, a singular entry translates `msgid` into
`msgstr`. -/
def processEntry (backend : List Char → BackendResult) (e : Entry) :
    Entry × List (List Char) :=
  if e.msgid_plural.isEmpty then
    ({e with msgstr := translate_string (backend e.msgid) e.msgid}, [e.msgid])
  else
    let r := (entryKeys e).foldl (processPluralStep backend e)
      (e.msgstr_plural, [])
    ({e with msgstr_plural := r.1}, r.2)

/-! ## The main loop (src/app.py lines 180-219) -/

/-- Observable outcome of one run of the loop: the final in-memory
catalog, the successive progress indices written by `save_progress` (each
such write is immediately followed by `po.save`, so this list also counts
the catalog-file writes), and the translation-invoker calls as pairs of
entry index and source text. -/
structure RunResult where
  catalog : List Entry
  saves : List Nat
  invocations : List (Nat × List Char)
deriving DecidableEq

/-- src/app.py lines 180-219: iterate entries with running index `i`.
Indices below `start` are skipped before any classification; an empty
`msgid` falls through the `if entry.msgid:` guard; a classifier skip
leaves the entry untouched; otherwise the entry is processed and the
progress and catalog files are written. -/
def mainLoop (backend : List Char → BackendResult) (start : Nat) :
    Nat → List Entry → RunResult
  | _, [] => ⟨[], [], []⟩
  | i, e :: rest =>
    if i < start then
      let r := mainLoop backend start (i + 1) rest
      ⟨e :: r.catalog, r.saves, r.invocations⟩
    else if e.msgid.isEmpty then
      let r := mainLoop backend start (i + 1) rest
      ⟨e :: r.catalog, r.saves, r.invocations⟩
    else if classifierSkip e.msgid then
      let r := mainLoop backend start (i + 1) rest
      ⟨e :: r.catalog, r.saves, r.invocations⟩
    else
      let p := processEntry backend e
      let r := mainLoop backend start (i + 1) rest
      ⟨p.1 :: r.catalog, i :: r.saves, p.2.map (fun t => (i, t)) ++ r.invocations⟩

/-- One full program run over a loaded catalog: the starting index is read
from the progress file (`load_progress` + `progress.get("index", 0)`),
then the loop runs from entry index 0. -/
def runMain (backend : List Char → BackendResult)
    (progressFile : Option (List Char)) (entries : List Entry) : RunResult :=
  mainLoop backend (load_progress_index progressFile) 0 entries

/-- How the loop transforms the entry at absolute index `i`: untouched
when below the starting index or skipped, otherwise replaced by its
processed form. -/
def entryStep (backend : List Char → BackendResult) (start i : Nat)
    (e : Entry) : Entry :=
  if i < start then e
  else if e.msgid.isEmpty then e
  else if classifierSkip e.msgid then e
  else (processEntry backend e).1

/-! ## Concrete data used by witnesses and counterexamples -/

/-- A backend that always answers with the fixed text `Bonjour`. -/
def backendBonjour : List Char → BackendResult :=
  fun _ => BackendResult.success "Bonjour".data

/-- A backend that always reports a rate limit. -/
def backendRateLimited : List Char → BackendResult :=
  fun _ => BackendResult.rateLimit

/-- A backend that always answers with the letterless text `###`. -/
def backendHashes : List Char → BackendResult :=
  fun _ => BackendResult.success "###".data

/-- A singular entry with source `Hello`. -/
def entryHello : Entry := ⟨"Hello".data, [], [], [], 1⟩

/-- A singular entry with source `World`. -/
def entryWorld : Entry := ⟨"World".data, [], [], [], 2⟩

/-- The spec's plural scenario: singular source `1 file`, plural source
`%d files`, target mapping with indices 0 and 1. -/
def entryFiles : Entry :=
  ⟨"1 file".data, "%d files".data, [], [(0, []), (1, [])], 3⟩

/-- An eligible plural entry whose only plural form has a comment-marker
source: `msgid` is translatable but `msgid_plural` starts with `'#'` and
the target mapping only contains index 1. -/
def entryHashPlural : Entry :=
  ⟨"Hello".data, "#files".data, [], [(1, "old".data)], 4⟩

/-- A placeholder-only entry that every run skips. -/
def entryPercentD : Entry := ⟨"%d".data, [], [], [], 5⟩

/-- A letterless entry (digits and punctuation only) that every run skips. -/
def entryNumeric : Entry := ⟨"1.2.3".data, [], [], [], 6⟩

/-! # Theorems -/

/-! ## Decimal and progress-file lemmas -/

theorem charVal_digitChar (m : Nat) (h : m < 10) : charVal (digitChar m) = m := by
  interval_cases m <;> rfl

theorem decimalToNat_append_digit (a : List Char) (c : Char) :
    decimalToNat (a ++ [c]) = decimalToNat a * 10 + charVal c := by
  simp [decimalToNat, List.foldl_append]

theorem decimalToNat_natToDecimalAux :
    ∀ fuel n, n < fuel → decimalToNat (natToDecimalAux fuel n) = n := by
  intro fuel
  induction fuel with
  | zero => intro n h; omega
  | succ fuel ih =>
    intro n h
    by_cases h10 : n < 10
    · simp [natToDecimalAux, h10, decimalToNat, charVal_digitChar n h10]
    · have hdiv : n / 10 < fuel := by omega
      simp only [natToDecimalAux, if_neg h10]
      rw [decimalToNat_append_digit, ih (n / 10) hdiv,
        charVal_digitChar (n % 10) (Nat.mod_lt n (by omega))]
      omega

theorem decimalToNat_natToDecimal (n : Nat) :
    decimalToNat (natToDecimal n) = n :=
  decimalToNat_natToDecimalAux (n + 1) n (Nat.lt_succ_self n)

theorem load_save_round_trip (n : Nat) :
    load_progress_index (some (save_progress n)) = n := by
  have hlen : ("\x7b\"index\": ".data).length = 10 := rfl
  simp only [load_progress_index, save_progress]
  rw [List.append_assoc, ← hlen, List.drop_left, List.dropLast_concat,
    decimalToNat_natToDecimal]

/-- Claim C8: saving progress N and loading it back yields exactly N, and
loading when no progress file exists yields the starting index 0. -/
theorem c8_progress_round_trip :
    (∀ n : Nat, load_progress_index (some (save_progress n)) = n) ∧
    load_progress_index none = 0 :=
  ⟨load_save_round_trip, rfl⟩

/-! ## Output-file-name lemmas -/

theorem startsWithList_append_self (pre l : List Char) :
    startsWithList pre (pre ++ l) = true := by
  induction pre with
  | nil => rfl
  | cons c cs ih => simp [startsWithList, ih]

theorem startsWithList_po_eq_true (s : List Char) :
    startsWithList ".po".data s = true ↔
      ∃ rest, s = '.' :: 'p' :: 'o' :: rest := by
  match s with
  | [] =>
    constructor
    · intro h; simp [startsWithList] at h
    · rintro ⟨rest, h⟩; simp at h
  | [c1] =>
    constructor
    · intro h
      simp only [startsWithList, Bool.and_eq_true] at h
      exact absurd h.2 (by simp)
    · rintro ⟨rest, h⟩; simp at h
  | [c1, c2] =>
    constructor
    · intro h
      simp only [startsWithList, Bool.and_eq_true] at h
      exact absurd h.2.2 (by simp)
    · rintro ⟨rest, h⟩; simp at h
  | c1 :: c2 :: c3 :: rest =>
    constructor
    · intro h
      simp only [startsWithList, Bool.and_eq_true, beq_iff_eq] at h
      exact ⟨rest, by rw [← h.1, ← h.2.1, ← h.2.2.1]⟩
    · rintro ⟨rest2, h⟩
      injection h with e1 h; injection h with e2 h; injection h with e3 h
      simp [startsWithList, e1, e2, e3]

theorem startsWithList_po_extend (c : Char) (cs : List Char)
    (h : startsWithList ".po".data (c :: cs) = false) :
    startsWithList ".po".data ((c :: cs) ++ ".po".data) = false := by
  cases hb : startsWithList ".po".data ((c :: cs) ++ ".po".data) with
  | false => rfl
  | true =>
    exfalso
    obtain ⟨rest, heq⟩ := (startsWithList_po_eq_true _).mp hb
    match cs with
    | [] =>
      injection heq with e1 heq; injection heq with e2 heq
      exact absurd e2 (by decide)
    | [c2] =>
      injection heq with e1 heq; injection heq with e2 heq
      injection heq with e3 heq
      exact absurd e3 (by decide)
    | c2 :: c3 :: cs2 =>
      injection heq with e1 heq; injection heq with e2 heq
      injection heq with e3 heq
      have : startsWithList ".po".data (c :: c2 :: c3 :: cs2) = true :=
        (startsWithList_po_eq_true _).mpr ⟨cs2, by rw [e1, e2, e3]⟩
      rw [this] at h
      exact absurd h (by decide)

theorem replaceAllPo_cons (new : List Char) (hd : Char) (tl : List Char)
    (h : startsWithList ".po".data (hd :: tl) = false) :
    replaceAllPo new (hd :: tl) = hd :: replaceAllPo new tl := by
  rw [replaceAllPo.eq_def]
  split
  · rename_i rest heq
    exact absurd ((startsWithList_po_eq_true (hd :: tl)).mpr ⟨rest, heq⟩)
      (by rw [h]; exact fun hc => Bool.false_ne_true hc)
  · rename_i c rest heq
    injection heq with h1 h2
    rw [h1, h2]
  · rename_i heq
    exact absurd heq (by simp)

theorem replaceAllPo_no_occurrence (new : List Char) :
    ∀ stem : List Char, containsList ".po".data stem = false →
      replaceAllPo new (stem ++ ".po".data) = stem ++ new := by
  intro stem
  induction stem with
  | nil =>
    intro _
    show replaceAllPo new ('.' :: 'p' :: 'o' :: []) = new
    simp [replaceAllPo]
  | cons c cs ih =>
    intro h
    simp only [containsList, Bool.or_eq_false_iff] at h
    obtain ⟨h1, h2⟩ := h
    rw [show (c :: cs) ++ ".po".data = c :: (cs ++ ".po".data) from rfl] at *
    rw [replaceAllPo_cons new c (cs ++ ".po".data)
      (startsWithList_po_extend c cs h1), ih h2]
    rfl

/-! ## Claims C2 and C3 -/

/-- Claim C2, counterexample: the program's completion report for an
elapsed time of 3661 seconds does not contain the breakdown
`1 hour, 1 minute, 1 second` claimed by the spec, and the report for 45
seconds is not the claimed `45 seconds`. -/
theorem c2_counterexample :
    containsList "1 hour, 1 minute, 1 second".data (formatTotalTime 3661) = false ∧
    formatTotalTime 45 ≠ "45 seconds".data := by
  constructor
  · decide
  · decide

/-- Claim C2 (amended): on completion the total elapsed wall-clock time is
reported as a plain seconds count with two decimal places, in the fixed
format `Total translation time: <seconds>.00 seconds.`; no
years/months/days/hours/minutes breakdown is produced (3661 seconds is
reported as `3661.00 seconds`, 45 seconds as `45.00 seconds`). -/
theorem c2_elapsed_report :
    (∀ n : Nat, formatTotalTime n =
      "Total translation time: ".data ++ natToDecimal n ++ ".00 seconds.".data) ∧
    formatTotalTime 3661 = "Total translation time: 3661.00 seconds.".data ∧
    containsList "hour".data (formatTotalTime 3661) = false ∧
    containsList "minute".data (formatTotalTime 3661) = false ∧
    formatTotalTime 45 = "Total translation time: 45.00 seconds.".data := by
  refine ⟨fun n => rfl, by decide, by decide, by decide, by decide⟩

/-- Claim C3, counterexample: for the input path `x.po.po` the code
rewrites every occurrence of `.po`, producing
`x_translated.po_translated.po` instead of replacing only the final
extension (which would give `x.po_translated.po`); a part of the path
other than the extension is altered. -/
theorem c3_counterexample :
    translated_file_name "x.po.po".data = "x_translated.po_translated.po".data ∧
    translated_file_name "x.po.po".data ≠ "x.po".data ++ "_translated.po".data := by
  constructor
  · decide
  · decide

/-- Claim C3 (amended): the output path is obtained by replacing every
occurrence of `.po` in the input path with `_translated.po` when the path
ends with `.po`, and by appending `_translated.po` otherwise; when `.po`
occurs nowhere in the path except as its final extension, this replaces
exactly the extension and alters nothing else. -/
theorem c3_output_path (stem path : List Char) :
    (containsList ".po".data stem = false →
      translated_file_name (stem ++ ".po".data) = stem ++ "_translated.po".data) ∧
    (endsWithList ".po".data path = false →
      translated_file_name path = path ++ "_translated.po".data) := by
  constructor
  · intro h
    have hend : endsWithList ".po".data (stem ++ ".po".data) = true := by
      unfold endsWithList
      rw [List.reverse_append]
      exact startsWithList_append_self (".po".data.reverse) stem.reverse
    unfold translated_file_name
    rw [hend]
    simp only [if_true]
    exact replaceAllPo_no_occurrence "_translated.po".data stem h
  · intro h
    unfold translated_file_name
    rw [h]
    simp

/-- Claim C3, witness: a path whose only `.po` occurrence is the final
extension gets exactly that extension replaced, and a path not ending in
`.po` gets the suffix appended. -/
theorem c3_witness :
    containsList ".po".data "dir.pq/x".data = false ∧
    translated_file_name ("dir.pq/x".data ++ ".po".data) =
      "dir.pq/x".data ++ "_translated.po".data ∧
    endsWithList ".po".data "notes.txt".data = false ∧
    translated_file_name "notes.txt".data = "notes.txt".data ++ "_translated.po".data :=
  ⟨by decide, (c3_output_path "dir.pq/x".data "notes.txt".data).1 (by decide),
    by decide, (c3_output_path "dir.pq/x".data "notes.txt".data).2 (by decide)⟩

/-! ## Classifier lemmas and claim C4 -/

theorem matchNoLetters_eq_not_search (s : List Char) :
    matchNoLetters s = !searchLetter s := by
  induction s with
  | nil => rfl
  | cons c cs ih =>
    simp only [matchNoLetters, searchLetter, List.all_cons, List.any_cons,
      Bool.not_or] at *
    rw [ih]

theorem matchPercentOnly_eq_amended (s : List Char) :
    matchPercentOnly s = amendedPercentOnly s := by
  match s with
  | [] => rfl
  | c :: rest =>
    rcases List.eq_nil_or_concat rest with hrest | ⟨init, r, hrest⟩
    · subst hrest
      simp [matchPercentOnly, amendedPercentOnly, specPercentOnly]
    · rw [List.concat_eq_append] at hrest
      subst hrest
      have h1 : (init ++ [r]).getLast? = some r := List.getLast?_concat _
      have h2 : (init ++ [r]).dropLast = init := List.dropLast_concat
      have h3 : (c :: (init ++ [r])).getLast? = some r := by
        rw [← List.cons_append]; exact List.getLast?_concat _
      have h4 : (c :: (init ++ [r])).dropLast = c :: init := by
        rw [← List.cons_append]; exact List.dropLast_concat
      simp only [matchPercentOnly, amendedPercentOnly, h1, h2, h3, h4,
        specPercentOnly]
      cases hc : c == '%' <;>
        cases ha : (init ++ [r]).all isAsciiLetter <;>
        cases hs : some r == some '\n' <;>
        cases hi : init.all isAsciiLetter <;>
          simp [hc, ha, hs, hi]

/-- Claim C4, counterexample: the source identifier `"%s\n"` is skipped by
the code (Python's `$` anchor lets `^%[a-zA-Z]*$` match before the final
newline) although it is not empty, does not begin with `#` after
trimming, contains a letter, and is not a percent sign followed only by
letters and nothing else — so the claimed characterisation of the skip
condition is violated. -/
theorem c4_counterexample :
    entrySkipped "%s\n".data = true ∧ specClassifierSkip "%s\n".data = false := by
  constructor
  · decide
  · decide

/-! ## Association-list and sorting lemmas -/

theorem setAssoc_cons (p : Nat × List Char) (rest : List (Nat × List Char))
    (k : Nat) (v : List Char) :
    setAssoc (p :: rest) k v =
      (if p.1 = k then (k, v) else p) :: setAssoc rest k v := rfl

theorem keys_setAssoc (m : List (Nat × List Char)) (k : Nat) (v : List Char) :
    (setAssoc m k v).map Prod.fst = m.map Prod.fst := by
  induction m with
  | nil => rfl
  | cons p rest ih =>
    rw [setAssoc_cons, List.map_cons, List.map_cons, ih]
    by_cases h : p.1 = k
    · simp [h]
    · simp [h]

theorem setAssoc_of_notmem (m : List (Nat × List Char)) (k : Nat) (v : List Char)
    (h : k ∉ m.map Prod.fst) : setAssoc m k v = m := by
  induction m with
  | nil => rfl
  | cons p rest ih =>
    simp only [List.map_cons, List.mem_cons] at h
    push_neg at h
    rw [setAssoc_cons, if_neg (fun hc => h.1 hc.symm), ih h.2]

theorem alookup_setAssoc_self (m : List (Nat × List Char)) (k : Nat) (v : List Char)
    (h : k ∈ m.map Prod.fst) : alookup k (setAssoc m k v) = some v := by
  induction m with
  | nil => simp at h
  | cons p rest ih =>
    simp only [List.map_cons, List.mem_cons] at h
    rw [setAssoc_cons]
    by_cases hp : p.1 = k
    · simp [hp, alookup]
    · rw [if_neg hp]
      simp only [alookup, if_neg hp]
      rcases h with h | h
      · exact absurd h.symm hp
      · exact ih h

theorem alookup_setAssoc_ne (m : List (Nat × List Char)) (k idx : Nat) (v : List Char)
    (h : idx ≠ k) : alookup idx (setAssoc m k v) = alookup idx m := by
  induction m with
  | nil => rfl
  | cons p rest ih =>
    rw [setAssoc_cons]
    by_cases hp : p.1 = k
    · have h1 : ((k, v) : Nat × List Char).1 ≠ idx := fun hc => h hc.symm
      have h2 : p.1 ≠ idx := by rw [hp]; exact fun hc => h hc.symm
      rw [if_pos hp]
      simp only [alookup, if_neg h1, if_neg h2]
      exact ih
    · rw [if_neg hp]
      simp only [alookup]
      by_cases hq : p.1 = idx
      · simp [hq]
      · rw [if_neg hq, if_neg hq]
        exact ih

theorem insertSorted_perm (n : Nat) (l : List Nat) :
    (insertSorted n l).Perm (n :: l) := by
  induction l with
  | nil => exact List.Perm.refl _
  | cons m ms ih =>
    simp only [insertSorted]
    by_cases h : n ≤ m
    · rw [if_pos h]
    · rw [if_neg h]
      exact (ih.cons m).trans (List.Perm.swap n m ms)

theorem sortNat_perm (l : List Nat) : (sortNat l).Perm l := by
  induction l with
  | nil => exact List.Perm.refl _
  | cons x xs ih =>
    exact (insertSorted_perm x (sortNat xs)).trans (ih.cons x)

theorem entryKeys_mem (e : Entry) (idx : Nat) :
    idx ∈ entryKeys e ↔ idx ∈ e.msgstr_plural.map Prod.fst :=
  (sortNat_perm _).mem_iff

/-! ## Plural-fold lemmas -/

theorem fold_trace (backend : List Char → BackendResult) (e : Entry) :
    ∀ (ks : List Nat) (m0 : List (Nat × List Char)) (t0 : List (List Char)),
      (ks.foldl (processPluralStep backend e) (m0, t0)).2 =
        t0 ++ (ks.filter fun idx =>
          !startsWithHash (pyStrip (sourceForIndex e idx))).map (sourceForIndex e) := by
  intro ks
  induction ks with
  | nil => intro m0 t0; simp
  | cons k ks ih =>
    intro m0 t0
    simp only [List.foldl_cons, processPluralStep]
    by_cases hh : startsWithHash (pyStrip (sourceForIndex e k)) = true
    · rw [if_pos hh, ih m0 t0, List.filter_cons]
      simp [hh]
    · rw [if_neg hh]
      have hh2 : startsWithHash (pyStrip (sourceForIndex e k)) = false :=
        Bool.not_eq_true _ ▸ eq_false_of_ne_true hh
      rw [ih, List.filter_cons]
      simp [hh2, List.append_assoc]

theorem fold_alookup (backend : List Char → BackendResult) (e : Entry) :
    ∀ (ks : List Nat) (m0 : List (Nat × List Char)) (t0 : List (List Char)) (idx : Nat),
      alookup idx ((ks.foldl (processPluralStep backend e) (m0, t0)).1) =
        if idx ∈ ks ∧ startsWithHash (pyStrip (sourceForIndex e idx)) = false ∧
            idx ∈ m0.map Prod.fst then
          some (translate_string (backend (sourceForIndex e idx)) (sourceForIndex e idx))
        else alookup idx m0 := by
  intro ks
  induction ks with
  | nil => intro m0 t0 idx; simp
  | cons k ks ih =>
    intro m0 t0 idx
    simp only [List.foldl_cons, processPluralStep]
    by_cases hh : startsWithHash (pyStrip (sourceForIndex e k)) = true
    · rw [if_pos hh, ih m0 t0 idx]
      apply if_congr _ rfl rfl
      constructor
      · rintro ⟨h1, h2, h3⟩
        exact ⟨List.mem_cons_of_mem k h1, h2, h3⟩
      · rintro ⟨h1, h2, h3⟩
        refine ⟨?_, h2, h3⟩
        rcases List.mem_cons.mp h1 with h1 | h1
        · subst h1
          rw [hh] at h2
          exact absurd h2 (by decide)
        · exact h1
    · rw [if_neg hh]
      have hh2 : startsWithHash (pyStrip (sourceForIndex e k)) = false :=
        eq_false_of_ne_true hh
      rw [ih]
      by_cases hik : idx = k
      · subst hik
        by_cases hmem0 : idx ∈ m0.map Prod.fst
        · conv_rhs => rw [if_pos ⟨List.mem_cons_self idx ks, hh2, hmem0⟩]
          by_cases hks : idx ∈ ks
          · rw [if_pos ⟨hks, hh2, by rw [keys_setAssoc]; exact hmem0⟩]
          · rw [if_neg (fun hc => hks hc.1)]
            exact alookup_setAssoc_self m0 idx _ hmem0
        · rw [setAssoc_of_notmem m0 idx _ hmem0,
            if_neg (fun hc => hmem0 hc.2.2), if_neg (fun hc => hmem0 hc.2.2)]
      · rw [alookup_setAssoc_ne m0 k idx _ hik]
        have hkeys := keys_setAssoc m0 k
          (translate_string (backend (sourceForIndex e k)) (sourceForIndex e k))
        apply if_congr _ rfl rfl
        constructor
        · rintro ⟨h1, h2, h3⟩
          exact ⟨List.mem_cons_of_mem k h1, h2, hkeys ▸ h3⟩
        · rintro ⟨h1, h2, h3⟩
          exact ⟨(List.mem_cons.mp h1).resolve_left hik, h2, hkeys.symm ▸ h3⟩

/-! ## Entry-processing lemmas -/

theorem processEntry_trace (backend : List Char → BackendResult) (e : Entry) :
    (processEntry backend e).2 =
      if e.msgid_plural.isEmpty then [e.msgid]
      else ((entryKeys e).filter fun idx =>
        !startsWithHash (pyStrip (sourceForIndex e idx))).map (sourceForIndex e) := by
  by_cases h : e.msgid_plural.isEmpty = true
  · simp [processEntry, h]
  · have h2 : e.msgid_plural.isEmpty = false := eq_false_of_ne_true h
    simp [processEntry, h2, fold_trace]

theorem processEntry_msgstr_plural (backend : List Char → BackendResult) (e : Entry)
    (h : e.msgid_plural.isEmpty = false) (idx : Nat) :
    alookup idx (processEntry backend e).1.msgstr_plural =
      if idx ∈ entryKeys e ∧
          startsWithHash (pyStrip (sourceForIndex e idx)) = false ∧
          idx ∈ e.msgstr_plural.map Prod.fst then
        some (translate_string (backend (sourceForIndex e idx)) (sourceForIndex e idx))
      else alookup idx e.msgstr_plural := by
  simp only [processEntry, h, Bool.false_eq_true, if_false]
  exact fold_alookup backend e (entryKeys e) e.msgstr_plural [] idx

theorem processEntry_singular (backend : List Char → BackendResult) (e : Entry)
    (h : e.msgid_plural.isEmpty = true) :
    processEntry backend e =
      ({e with msgstr := translate_string (backend e.msgid) e.msgid}, [e.msgid]) := by
  simp [processEntry, h]

theorem processEntry_plural_frame (backend : List Char → BackendResult) (e : Entry)
    (h : e.msgid_plural.isEmpty = false) :
    (processEntry backend e).1.msgid = e.msgid ∧
    (processEntry backend e).1.msgid_plural = e.msgid_plural ∧
    (processEntry backend e).1.msgstr = e.msgstr := by
  simp [processEntry, h]

/-! ## Translation-invoker lemmas -/

theorem translate_string_cases (b : BackendResult) (text : List Char) :
    translate_string b text = text ∨ validTranslationOf b (translate_string b text) := by
  cases b with
  | success content =>
    by_cases h : invalidTranslation (pyStrip content) = true
    · left
      simp [translate_string, h]
    · right
      have h2 : invalidTranslation (pyStrip content) = false := eq_false_of_ne_true h
      exact ⟨content, rfl, by simp [translate_string, h2], h2⟩
  | rateLimit => left; rfl
  | otherError msg => left; rfl

theorem validTranslationOf_ne_nil (b : BackendResult) (v : List Char)
    (h : validTranslationOf b v) : v ≠ [] := by
  obtain ⟨content, hb, hv, hinv⟩ := h
  intro h0
  rw [← hv, h0] at hinv
  exact absurd hinv (by decide)

/-! ## Main-loop lemmas -/

theorem mainLoop_cons_untouched (backend : List Char → BackendResult)
    (start i : Nat) (e : Entry) (rest : List Entry)
    (h : i < start ∨ e.msgid.isEmpty = true ∨ classifierSkip e.msgid = true) :
    mainLoop backend start i (e :: rest) =
      ⟨e :: (mainLoop backend start (i + 1) rest).catalog,
        (mainLoop backend start (i + 1) rest).saves,
        (mainLoop backend start (i + 1) rest).invocations⟩ := by
  rcases h with h | h | h
  · simp [mainLoop, h]
  · by_cases h1 : i < start
    · simp [mainLoop, h1]
    · simp [mainLoop, h1, h]
  · by_cases h1 : i < start
    · simp [mainLoop, h1]
    · by_cases h2 : e.msgid.isEmpty = true
      · simp [mainLoop, h1, h2]
      · simp [mainLoop, h1, h2, h]

theorem mainLoop_cons_process (backend : List Char → BackendResult)
    (start i : Nat) (e : Entry) (rest : List Entry)
    (h1 : ¬ i < start) (h2 : e.msgid.isEmpty = false)
    (h3 : classifierSkip e.msgid = false) :
    mainLoop backend start i (e :: rest) =
      ⟨(processEntry backend e).1 :: (mainLoop backend start (i + 1) rest).catalog,
        i :: (mainLoop backend start (i + 1) rest).saves,
        (processEntry backend e).2.map (fun t => (i, t)) ++
          (mainLoop backend start (i + 1) rest).invocations⟩ := by
  simp [mainLoop, h1, h2, h3]

theorem entryStep_untouched (backend : List Char → BackendResult)
    (start i : Nat) (e : Entry)
    (h : i < start ∨ e.msgid.isEmpty = true ∨ classifierSkip e.msgid = true) :
    entryStep backend start i e = e := by
  rcases h with h | h | h
  · simp [entryStep, h]
  · by_cases h1 : i < start
    · simp [entryStep, h1]
    · simp [entryStep, h1, h]
  · by_cases h1 : i < start
    · simp [entryStep, h1]
    · by_cases h2 : e.msgid.isEmpty = true
      · simp [entryStep, h1, h2]
      · simp [entryStep, h1, h2, h]

theorem entryStep_process (backend : List Char → BackendResult)
    (start i : Nat) (e : Entry)
    (h1 : ¬ i < start) (h2 : e.msgid.isEmpty = false)
    (h3 : classifierSkip e.msgid = false) :
    entryStep backend start i e = (processEntry backend e).1 := by
  simp [entryStep, h1, h2, h3]

theorem option_map_some (f : Entry → Entry) (e : Entry) :
    Option.map f (some e) = some (f e) := rfl

theorem mainLoop_catalog (backend : List Char → BackendResult) (start : Nat) :
    ∀ (l : List Entry) (i j : Nat),
      (mainLoop backend start i l).catalog[j]? =
        (l[j]?).map (entryStep backend start (i + j)) := by
  intro l
  induction l with
  | nil => intro i j; simp [mainLoop]
  | cons e rest ih =>
    intro i j
    rcases Decidable.em
      (i < start ∨ e.msgid.isEmpty = true ∨ classifierSkip e.msgid = true) with hu | hu
    · rw [mainLoop_cons_untouched backend start i e rest hu]
      cases j with
      | zero =>
        simp only [List.getElem?_cons_zero, Nat.add_zero, option_map_some]
        rw [entryStep_untouched backend start i e hu]
      | succ j =>
        simp only [List.getElem?_cons_succ]
        rw [ih (i + 1) j, show i + (j + 1) = (i + 1) + j from by omega]
    · push_neg at hu
      obtain ⟨h1, h2, h3⟩ := hu
      rw [mainLoop_cons_process backend start i e rest (Nat.not_lt.mpr h1)
        (eq_false_of_ne_true h2) (eq_false_of_ne_true h3)]
      cases j with
      | zero =>
        simp only [List.getElem?_cons_zero, Nat.add_zero, option_map_some]
        rw [entryStep_process backend start i e (Nat.not_lt.mpr h1)
          (eq_false_of_ne_true h2) (eq_false_of_ne_true h3)]
      | succ j =>
        simp only [List.getElem?_cons_succ]
        rw [ih (i + 1) j, show i + (j + 1) = (i + 1) + j from by omega]

theorem mainLoop_invocations_mem (backend : List Char → BackendResult) (start : Nat) :
    ∀ (l : List Entry) (i j : Nat) (t : List Char),
      (j, t) ∈ (mainLoop backend start i l).invocations →
      start ≤ j ∧ ∃ k e, j = i + k ∧ l[k]? = some e ∧
        e.msgid.isEmpty = false ∧ classifierSkip e.msgid = false ∧
        t ∈ (processEntry backend e).2 := by
  intro l
  induction l with
  | nil => intro i j t h; simp [mainLoop] at h
  | cons e rest ih =>
    intro i j t h
    rcases Decidable.em
      (i < start ∨ e.msgid.isEmpty = true ∨ classifierSkip e.msgid = true) with hu | hu
    · rw [mainLoop_cons_untouched backend start i e rest hu] at h
      obtain ⟨hle, k, e2, hjk, hget, hne, hskip, ht⟩ := ih (i + 1) j t h
      exact ⟨hle, k + 1, e2, by omega, by simpa using hget, hne, hskip, ht⟩
    · push_neg at hu
      obtain ⟨h1, h2, h3⟩ := hu
      rw [mainLoop_cons_process backend start i e rest (Nat.not_lt.mpr h1)
        (eq_false_of_ne_true h2) (eq_false_of_ne_true h3)] at h
      rcases List.mem_append.mp h with h | h
      · obtain ⟨t2, ht2, heq⟩ := List.mem_map.mp h
        obtain ⟨hj, ht⟩ := Prod.mk.injEq .. ▸ heq
        refine ⟨hj ▸ h1, 0, e, by omega, by simp, eq_false_of_ne_true h2,
          eq_false_of_ne_true h3, ht ▸ ht2⟩
      · obtain ⟨hle, k, e2, hjk, hget, hne, hskip, ht⟩ := ih (i + 1) j t h
        exact ⟨hle, k + 1, e2, by omega, by simpa using hget, hne, hskip, ht⟩

theorem mainLoop_saves_mem (backend : List Char → BackendResult) (start : Nat) :
    ∀ (l : List Entry) (i j : Nat),
      j ∈ (mainLoop backend start i l).saves →
      start ≤ j ∧ ∃ k e, j = i + k ∧ l[k]? = some e ∧
        e.msgid.isEmpty = false ∧ classifierSkip e.msgid = false := by
  intro l
  induction l with
  | nil => intro i j h; simp [mainLoop] at h
  | cons e rest ih =>
    intro i j h
    rcases Decidable.em
      (i < start ∨ e.msgid.isEmpty = true ∨ classifierSkip e.msgid = true) with hu | hu
    · rw [mainLoop_cons_untouched backend start i e rest hu] at h
      obtain ⟨hle, k, e2, hjk, hget, hne, hskip⟩ := ih (i + 1) j h
      exact ⟨hle, k + 1, e2, by omega, by simpa using hget, hne, hskip⟩
    · push_neg at hu
      obtain ⟨h1, h2, h3⟩ := hu
      rw [mainLoop_cons_process backend start i e rest (Nat.not_lt.mpr h1)
        (eq_false_of_ne_true h2) (eq_false_of_ne_true h3)] at h
      rcases List.mem_cons.mp h with h | h
      · exact ⟨h ▸ h1, 0, e, by omega, by simp, eq_false_of_ne_true h2,
          eq_false_of_ne_true h3⟩
      · obtain ⟨hle, k, e2, hjk, hget, hne, hskip⟩ := ih (i + 1) j h
        exact ⟨hle, k + 1, e2, by omega, by simpa using hget, hne, hskip⟩

theorem mainLoop_saves_sorted (backend : List Char → BackendResult) (start : Nat) :
    ∀ (l : List Entry) (i : Nat),
      ((mainLoop backend start i l).saves).Pairwise (· < ·) := by
  intro l
  induction l with
  | nil => intro i; simp [mainLoop]
  | cons e rest ih =>
    intro i
    rcases Decidable.em
      (i < start ∨ e.msgid.isEmpty = true ∨ classifierSkip e.msgid = true) with hu | hu
    · rw [mainLoop_cons_untouched backend start i e rest hu]
      exact ih (i + 1)
    · push_neg at hu
      obtain ⟨h1, h2, h3⟩ := hu
      rw [mainLoop_cons_process backend start i e rest (Nat.not_lt.mpr h1)
        (eq_false_of_ne_true h2) (eq_false_of_ne_true h3)]
      refine List.Pairwise.cons ?_ (ih (i + 1))
      intro x hx
      obtain ⟨hle, k, e2, hjk, hget, hne, hskip⟩ :=
        mainLoop_saves_mem backend start rest (i + 1) x hx
      omega

theorem mainLoop_backend_indep (b1 b2 : List Char → BackendResult) (start : Nat) :
    ∀ (l : List Entry) (i : Nat),
      (mainLoop b1 start i l).invocations = (mainLoop b2 start i l).invocations ∧
      (mainLoop b1 start i l).saves = (mainLoop b2 start i l).saves := by
  intro l
  induction l with
  | nil => intro i; exact ⟨rfl, rfl⟩
  | cons e rest ih =>
    intro i
    rcases Decidable.em
      (i < start ∨ e.msgid.isEmpty = true ∨ classifierSkip e.msgid = true) with hu | hu
    · rw [mainLoop_cons_untouched b1 start i e rest hu,
        mainLoop_cons_untouched b2 start i e rest hu]
      exact ih (i + 1)
    · push_neg at hu
      obtain ⟨h1, h2, h3⟩ := hu
      rw [mainLoop_cons_process b1 start i e rest (Nat.not_lt.mpr h1)
        (eq_false_of_ne_true h2) (eq_false_of_ne_true h3),
        mainLoop_cons_process b2 start i e rest (Nat.not_lt.mpr h1)
        (eq_false_of_ne_true h2) (eq_false_of_ne_true h3)]
      refine ⟨?_, ?_⟩
      · show (processEntry b1 e).2.map (fun t => (i, t)) ++ _ =
          (processEntry b2 e).2.map (fun t => (i, t)) ++ _
        rw [processEntry_trace b1 e, processEntry_trace b2 e, (ih (i + 1)).1]
      · show i :: _ = i :: _
        rw [(ih (i + 1)).2]

theorem sorted_take_le :
    ∀ (s : List Nat) (k p : Nat), s.Pairwise (· < ·) → s[k]? = some p →
      ∀ c ∈ s.take (k + 1), c ≤ p := by
  intro s
  induction s with
  | nil => intro k p _ h; simp at h
  | cons x xs ih =>
    intro k p hp hk c hc
    cases k with
    | zero =>
      rw [List.getElem?_cons_zero] at hk
      have hcx : c = x := by simpa using hc
      have hxp : x = p := Option.some.inj hk
      omega
    | succ k =>
      rw [List.getElem?_cons_succ] at hk
      rw [List.take_succ_cons] at hc
      rcases List.mem_cons.mp hc with hc | hc
      · subst hc
        have hmem : p ∈ xs := List.getElem?_mem hk
        have := (List.pairwise_cons.mp hp).1 p hmem
        omega
      · exact ih k p (List.pairwise_cons.mp hp).2 hk c hc

/-! ## Claim C9 -/

/-- Claim C9: every entry whose index is strictly below the stored
progress value is skipped unconditionally on a rerun — its catalog entry
is unchanged, it is never passed to the translation invoker, and no
progress save happens at its index — regardless of its content. -/
theorem c9_prior_entries_unchanged (backend : List Char → BackendResult)
    (entries : List Entry) (p j : Nat) (hj : j < p) :
    (runMain backend (some (save_progress p)) entries).catalog[j]? = entries[j]? ∧
    (∀ t, (j, t) ∉ (runMain backend (some (save_progress p)) entries).invocations) ∧
    j ∉ (runMain backend (some (save_progress p)) entries).saves := by
  refine ⟨?_, ?_, ?_⟩
  · show (mainLoop backend (load_progress_index (some (save_progress p)))
      0 entries).catalog[j]? = entries[j]?
    rw [load_save_round_trip p, mainLoop_catalog backend p entries 0 j]
    cases hget : entries[j]? with
    | none => rfl
    | some e =>
      rw [option_map_some, entryStep_untouched backend p (0 + j) e
        (Or.inl (by omega))]
  · intro t hmem
    unfold runMain at hmem
    rw [load_save_round_trip p] at hmem
    have := (mainLoop_invocations_mem backend p entries 0 j t hmem).1
    omega
  · intro hmem
    unfold runMain at hmem
    rw [load_save_round_trip p] at hmem
    have := (mainLoop_saves_mem backend p entries 0 j hmem).1
    omega

/-- Claim C9, witness: with stored progress 1, entry 0 is left untouched,
never invoked and never saved on the rerun. -/
theorem c9_witness :
    0 < 1 ∧
    ((runMain backendBonjour (some (save_progress 1))
        [entryHello, entryWorld]).catalog[0]? = [entryHello, entryWorld][0]? ∧
      (∀ t, (0, t) ∉ (runMain backendBonjour (some (save_progress 1))
        [entryHello, entryWorld]).invocations) ∧
      0 ∉ (runMain backendBonjour (some (save_progress 1))
        [entryHello, entryWorld]).saves) :=
  ⟨by decide,
    c9_prior_entries_unchanged backendBonjour [entryHello, entryWorld] 1 0 (by decide)⟩

/-! ## Claim C1 -/

/-- Claim C1, counterexample: the claim says no fully-completed entry is
ever reprocessed.  In a completed run over two entries the progress file
ends containing index 0 after entry 0 is fully processed (saves = [0, 1]);
killing the process right after that first save and resuming with the
stored progress 0 invokes the translation backend on entry 0 again, even
though entry 0 had completed, because the loop only skips indices strictly
below the stored index. -/
theorem c1_counterexample :
    (runMain backendBonjour none [entryHello, entryWorld]).saves = [0, 1] ∧
    (0, "Hello".data) ∈ (runMain backendBonjour (some (save_progress 0))
      [entryHello, entryWorld]).invocations := by
  constructor
  · decide
  · decide

/-- Claim C1 (amended): `save_progress i` stores the index of the entry
just processed, and resuming skips exactly the indices strictly below the
stored value.  Hence after a kill following the k-th save the resumed run
invokes translation only at indices at or above the stored index p, and of
all entries completed before the kill only the entry at index p itself
(the last completed one) can be reprocessed; the at most one other
reprocessed completed entry of the original claim is exactly this one. -/
theorem c1_resume_checkpointing (backend : List Char → BackendResult)
    (entries : List Entry) (k p : Nat)
    (h : ((runMain backend none entries).saves)[k]? = some p) :
    (∀ j t, (j, t) ∈ (runMain backend (some (save_progress p))
      entries).invocations → p ≤ j) ∧
    (∀ c ∈ ((runMain backend none entries).saves).take (k + 1),
      (∃ t, (c, t) ∈ (runMain backend (some (save_progress p))
        entries).invocations) → c = p) := by
  have hresume : ∀ j t, (j, t) ∈ (runMain backend (some (save_progress p))
      entries).invocations → p ≤ j := by
    intro j t hmem
    unfold runMain at hmem
    rw [load_save_round_trip p] at hmem
    exact (mainLoop_invocations_mem backend p entries 0 j t hmem).1
  refine ⟨hresume, ?_⟩
  rintro c hc ⟨t, hmem⟩
  have hsorted : ((runMain backend none entries).saves).Pairwise (· < ·) :=
    mainLoop_saves_sorted backend (load_progress_index none) entries 0
  have hle1 : c ≤ p := sorted_take_le _ k p hsorted h c hc
  have hle2 : p ≤ c := hresume c t hmem
  omega

/-- Claim C1, witness: concrete two-entry run, killed after the first save
(stored progress 0): every invocation of the resumed run is at index ≥ 0
and the only completed entry that is reprocessed is the one at index 0. -/
theorem c1_witness :
    ((runMain backendBonjour none [entryHello, entryWorld]).saves)[0]? = some 0 ∧
    ((∀ j t, (j, t) ∈ (runMain backendBonjour (some (save_progress 0))
        [entryHello, entryWorld]).invocations → 0 ≤ j) ∧
      (∀ c ∈ ((runMain backendBonjour none [entryHello, entryWorld]).saves).take 1,
        (∃ t, (c, t) ∈ (runMain backendBonjour (some (save_progress 0))
          [entryHello, entryWorld]).invocations) → c = 0)) :=
  ⟨by decide,
    c1_resume_checkpointing backendBonjour [entryHello, entryWorld] 0 0 (by decide)⟩

/-! ## Claim C4 (amended theorem) -/

/-- Claim C4 (amended): an entry is skipped if and only if its source
identifier is empty, begins with `#` after trimming, contains no ASCII
letter at all, or is a percent sign followed only by letters and nothing
else except an optional single trailing newline (Python's `$` anchor also
matches just before a final newline); in particular the loop never invokes
translation on an entry whose msgid contains no letters. -/
theorem c4_skip_characterization :
    (∀ msgid : List Char, entrySkipped msgid = amendedClassifierSkip msgid) ∧
    (∀ (backend : List Char → BackendResult) (progressFile : Option (List Char))
      (entries : List Entry) (j : Nat) (e : Entry) (t : List Char),
      entries[j]? = some e → searchLetter e.msgid = false →
      (j, t) ∉ (runMain backend progressFile entries).invocations) := by
  constructor
  · intro msgid
    simp only [entrySkipped, classifierSkip, amendedClassifierSkip,
      matchNoLetters_eq_not_search, matchPercentOnly_eq_amended]
    cases msgid.isEmpty <;> cases startsWithHash (pyStrip msgid) <;>
      cases searchLetter msgid <;> cases amendedPercentOnly msgid <;> rfl
  · intro backend progressFile entries j e t hget hletters hmem
    unfold runMain at hmem
    obtain ⟨_, k, e2, hjk, hget2, hne, hskip, _⟩ :=
      mainLoop_invocations_mem backend _ entries 0 j t hmem
    rw [show k = j from by omega, hget] at hget2
    have he : e = e2 := Option.some.inj hget2
    have : classifierSkip e.msgid = true := by
      simp [classifierSkip, hletters]
    rw [he, hskip] at this
    exact absurd this (by decide)

/-- Claim C4, witness: the letterless entry `1.2.3` is never invoked by
the loop. -/
theorem c4_witness :
    [entryNumeric][0]? = some entryNumeric ∧
    searchLetter entryNumeric.msgid = false ∧
    (0, "1.2.3".data) ∉ (runMain backendBonjour none [entryNumeric]).invocations :=
  ⟨by decide, by decide,
    c4_skip_characterization.2 backendBonjour none [entryNumeric] 0 entryNumeric
      "1.2.3".data (by decide) (by decide)⟩

/-! ## Claim C5 -/

/-- Claim C5: for an eligible entry with a plural source the translation
invoker is called exactly once per plural index present in the target
mapping (in ascending index order): index 0 with the singular source,
every other index with the plural source, except that a form whose
stripped source begins with `#` is skipped and its target left unchanged;
each non-skipped index receives its own independent translation.  An
entry without plural forms gets exactly one invocation on its singular
source, stored in `msgstr`. -/
theorem c5_plural_invocations (backend : List Char → BackendResult) (e : Entry) :
    (e.msgid_plural.isEmpty = false →
      (processEntry backend e).2 =
        ((entryKeys e).filter fun idx =>
          !startsWithHash (pyStrip (sourceForIndex e idx))).map (sourceForIndex e) ∧
      (∀ idx, idx ∈ e.msgstr_plural.map Prod.fst →
        alookup idx (processEntry backend e).1.msgstr_plural =
          if startsWithHash (pyStrip (sourceForIndex e idx)) then
            alookup idx e.msgstr_plural
          else some (translate_string (backend (sourceForIndex e idx))
            (sourceForIndex e idx)))) ∧
    (e.msgid_plural.isEmpty = true →
      (processEntry backend e).2 = [e.msgid] ∧
      (processEntry backend e).1.msgstr = translate_string (backend e.msgid) e.msgid) := by
  constructor
  · intro h
    constructor
    · rw [processEntry_trace backend e,
        if_neg (by rw [h]; exact Bool.false_ne_true)]
    · intro idx hmem
      rw [processEntry_msgstr_plural backend e h idx]
      by_cases hh : startsWithHash (pyStrip (sourceForIndex e idx)) = true
      · rw [if_neg (fun hc => by rw [hh] at hc; exact absurd hc.2.1 (by decide)),
          if_pos hh]
      · have hh2 : startsWithHash (pyStrip (sourceForIndex e idx)) = false :=
          eq_false_of_ne_true hh
        rw [if_pos ⟨(entryKeys_mem e idx).mpr hmem, hh2, hmem⟩,
          if_neg (by rw [hh2]; exact Bool.false_ne_true)]
  · intro h
    rw [processEntry_singular backend e h]
    exact ⟨rfl, rfl⟩

/-- Claim C5, witness: the spec's plural scenario — singular source
`1 file`, plural source `%d files`, target indices 0 and 1 — yields two
independent invocations, one per index, each with the correct source. -/
theorem c5_witness :
    entryFiles.msgid_plural.isEmpty = false ∧
    (processEntry backendBonjour entryFiles).2 = ["1 file".data, "%d files".data] ∧
    alookup 0 (processEntry backendBonjour entryFiles).1.msgstr_plural =
      some "Bonjour".data ∧
    alookup 1 (processEntry backendBonjour entryFiles).1.msgstr_plural =
      some "Bonjour".data :=
  ⟨by decide,
    ((c5_plural_invocations backendBonjour entryFiles).1 (by decide)).1.trans (by decide),
    by decide, by decide⟩

/-! ## Claim C6 -/

/-- Claim C6: the translation invoker always returns a usable string and
never raises — a refusal-phrase or letterless response, a rate limit, and
any other backend error all fall back to the original text, and every
result is either the original text or a validated translation; moreover
which entries the loop invokes does not depend on the backend at all, so
a rate limit on one entry cannot stop the next entry from being
processed. -/
theorem c6_invoker_fallback (text msg content : List Char) (b : BackendResult) :
    (invalidTranslation (pyStrip content) = true →
      translate_string (BackendResult.success content) text = text) ∧
    translate_string BackendResult.rateLimit text = text ∧
    translate_string (BackendResult.otherError msg) text = text ∧
    (translate_string b text = text ∨ validTranslationOf b (translate_string b text)) ∧
    (∀ (b1 b2 : List Char → BackendResult) (progressFile : Option (List Char))
      (entries : List Entry),
      (runMain b1 progressFile entries).invocations =
        (runMain b2 progressFile entries).invocations) := by
  refine ⟨?_, rfl, rfl, translate_string_cases b text, ?_⟩
  · intro h
    simp [translate_string, h]
  · intro b1 b2 progressFile entries
    exact (mainLoop_backend_indep b1 b2 (load_progress_index progressFile)
      entries 0).1

/-- Claim C6, witness: a refusal response falls back to the original text,
and with a backend that always rate-limits both entries are still
processed — entry 1 is invoked after entry 0 — with each target left equal
to its original source text. -/
theorem c6_witness :
    invalidTranslation (pyStrip "a reference to something".data) = true ∧
    translate_string (BackendResult.success "a reference to something".data)
      "Hello".data = "Hello".data ∧
    (runMain backendRateLimited none [entryHello, entryWorld]).invocations =
      [(0, "Hello".data), (1, "World".data)] ∧
    (runMain backendRateLimited none [entryHello, entryWorld]).catalog =
      [⟨"Hello".data, [], "Hello".data, [], 1⟩,
        ⟨"World".data, [], "World".data, [], 2⟩] :=
  ⟨by decide,
    (c6_invoker_fallback "Hello".data [] "a reference to something".data
      BackendResult.rateLimit).1 (by decide),
    by decide, by decide⟩

/-! ## Claim C7 -/

/-- Claim C7: catalog integrity — for every entry of the run's final
catalog, the singular target is unchanged or is a non-empty string that is
either the entry's own source or a validated backend translation, and
every plural target is unchanged or such a non-empty string for its form's
source; this holds for every backend behaviour. -/
theorem c7_catalog_integrity (backend : List Char → BackendResult)
    (progressFile : Option (List Char)) (entries : List Entry)
    (j : Nat) (e eOut : Entry)
    (hIn : entries[j]? = some e)
    (hOut : (runMain backend progressFile entries).catalog[j]? = some eOut) :
    (eOut.msgstr = e.msgstr ∨
      (eOut.msgstr ≠ [] ∧ (eOut.msgstr = e.msgid ∨
        validTranslationOf (backend e.msgid) eOut.msgstr))) ∧
    (∀ idx v, alookup idx eOut.msgstr_plural = some v →
      alookup idx e.msgstr_plural = some v ∨
        (v ≠ [] ∧ (v = sourceForIndex e idx ∨
          validTranslationOf (backend (sourceForIndex e idx)) v))) := by
  unfold runMain at hOut
  rw [mainLoop_catalog backend _ entries 0 j, hIn, option_map_some] at hOut
  have heOut : eOut =
      entryStep backend (load_progress_index progressFile) (0 + j) e :=
    (Option.some.inj hOut).symm
  rcases Decidable.em ((0 + j) < load_progress_index progressFile ∨
      e.msgid.isEmpty = true ∨ classifierSkip e.msgid = true) with hu | hu
  · rw [entryStep_untouched backend _ (0 + j) e hu] at heOut
    subst heOut
    exact ⟨Or.inl rfl, fun idx v hv => Or.inl hv⟩
  · push_neg at hu
    obtain ⟨h1, h2, h3⟩ := hu
    rw [entryStep_process backend _ (0 + j) e (Nat.not_lt.mpr h1)
      (eq_false_of_ne_true h2) (eq_false_of_ne_true h3)] at heOut
    have hmsgid_ne : e.msgid ≠ [] := by
      intro hnil
      rw [hnil] at h2
      exact h2 (by decide)
    by_cases hp : e.msgid_plural.isEmpty = true
    · rw [processEntry_singular backend e hp] at heOut
      have hstr : eOut.msgstr = translate_string (backend e.msgid) e.msgid := by
        rw [heOut]
      have hplur : eOut.msgstr_plural = e.msgstr_plural := by
        rw [heOut]
      constructor
      · rcases translate_string_cases (backend e.msgid) e.msgid with hc | hc
        · right
          refine ⟨?_, Or.inl (hstr.trans hc)⟩
          rw [hstr, hc]
          exact hmsgid_ne
        · right
          refine ⟨?_, Or.inr ?_⟩
          · rw [hstr]
            exact validTranslationOf_ne_nil _ _ hc
          · rw [hstr]
            exact hc
      · intro idx v hv
        rw [hplur] at hv
        exact Or.inl hv
    · have hp2 : e.msgid_plural.isEmpty = false := eq_false_of_ne_true hp
      have hframe := processEntry_plural_frame backend e hp2
      constructor
      · rw [heOut, hframe.2.2]
        exact Or.inl rfl
      · intro idx v hv
        rw [heOut, processEntry_msgstr_plural backend e hp2 idx] at hv
        by_cases hcond : idx ∈ entryKeys e ∧
            startsWithHash (pyStrip (sourceForIndex e idx)) = false ∧
            idx ∈ e.msgstr_plural.map Prod.fst
        · rw [if_pos hcond] at hv
          have hv2 : v = translate_string (backend (sourceForIndex e idx))
              (sourceForIndex e idx) := (Option.some.inj hv).symm
          have hsrc_ne : sourceForIndex e idx ≠ [] := by
            unfold sourceForIndex
            by_cases hidx : idx = 0
            · rw [if_pos hidx]; exact hmsgid_ne
            · rw [if_neg hidx]
              intro hnil
              rw [hnil] at hp2
              exact absurd hp2 (by decide)
          rcases translate_string_cases (backend (sourceForIndex e idx))
              (sourceForIndex e idx) with hc | hc
          · right
            refine ⟨?_, Or.inl (hv2.trans hc)⟩
            rw [hv2, hc]
            exact hsrc_ne
          · right
            refine ⟨?_, Or.inr ?_⟩
            · rw [hv2]
              exact validTranslationOf_ne_nil _ _ hc
            · rw [hv2]
              exact hc
        · rw [if_neg hcond] at hv
          exact Or.inl hv

/-- Claim C7, witness: a letterless backend response is rejected and the
entry keeps its own source text as target — a non-empty usable string. -/
theorem c7_witness :
    [entryHello][0]? = some entryHello ∧
    (runMain backendHashes none [entryHello]).catalog[0]? =
      some ⟨"Hello".data, [], "Hello".data, [], 1⟩ ∧
    ((⟨"Hello".data, [], "Hello".data, [], 1⟩ : Entry).msgstr = entryHello.msgstr ∨
      ((⟨"Hello".data, [], "Hello".data, [], 1⟩ : Entry).msgstr ≠ [] ∧
        ((⟨"Hello".data, [], "Hello".data, [], 1⟩ : Entry).msgstr = entryHello.msgid ∨
          validTranslationOf (backendHashes entryHello.msgid)
            (⟨"Hello".data, [], "Hello".data, [], 1⟩ : Entry).msgstr))) :=
  ⟨by decide, by decide,
    (c7_catalog_integrity backendHashes none [entryHello] 0 entryHello
      ⟨"Hello".data, [], "Hello".data, [], 1⟩ (by decide) (by decide)).1⟩

/-! ## Claim C10 -/

/-- Claim C10, counterexample: an eligible plural entry whose only plural
form has a `#`-prefixed source is persisted without any mutation — the
catalog is unchanged and no invocation happened, yet the progress file and
the output catalog were written (saves = [0]).  This refutes the claim
that persistence happens only after an entry's target has actually been
mutated. -/
theorem c10_counterexample :
    (runMain backendBonjour none [entryHashPlural]).catalog = [entryHashPlural] ∧
    (runMain backendBonjour none [entryHashPlural]).invocations = [] ∧
    (runMain backendBonjour none [entryHashPlural]).saves = [0] := by
  refine ⟨?_, ?_, ?_⟩
  · decide
  · decide
  · decide

/-- Claim C10 (amended): skipped entries trigger no persistence — every
saved progress index belongs to an entry with a non-empty source that
passed the classifier (never a skipped one) — and a run in which every
entry is skipped writes neither progress nor catalog and leaves every
entry unchanged.  Processing normally mutates the entry's target, but an
eligible plural entry all of whose forms are comment-skipped is persisted
without mutation, so "persisted" means "processed", not "mutated". -/
theorem c10_saves_only_processed (backend : List Char → BackendResult)
    (progressFile : Option (List Char)) (entries : List Entry) :
    (∀ j ∈ (runMain backend progressFile entries).saves,
      ∃ e, entries[j]? = some e ∧ e.msgid.isEmpty = false ∧
        classifierSkip e.msgid = false) ∧
    ((∀ (j : Nat) (e : Entry), entries[j]? = some e →
        e.msgid.isEmpty = true ∨ classifierSkip e.msgid = true) →
      (runMain backend progressFile entries).saves = [] ∧
      (runMain backend progressFile entries).catalog = entries) := by
  have hpart1 : ∀ j ∈ (runMain backend progressFile entries).saves,
      ∃ e, entries[j]? = some e ∧ e.msgid.isEmpty = false ∧
        classifierSkip e.msgid = false := by
    intro j hj
    unfold runMain at hj
    obtain ⟨_, k, e, hjk, hget, hne, hskip⟩ :=
      mainLoop_saves_mem backend _ entries 0 j hj
    exact ⟨e, by rw [show j = k from by omega]; exact hget, hne, hskip⟩
  refine ⟨hpart1, ?_⟩
  intro hall
  constructor
  · cases hs : (runMain backend progressFile entries).saves with
    | nil => rfl
    | cons a as =>
      exfalso
      have hmem : a ∈ (runMain backend progressFile entries).saves := by
        rw [hs]; exact List.mem_cons_self a as
      obtain ⟨e, hget, hne, hskip⟩ := hpart1 a hmem
      rcases hall a e hget with h | h
      · rw [h] at hne; exact absurd hne (by decide)
      · rw [h] at hskip; exact absurd hskip (by decide)
  · apply List.ext_getElem?
    intro n
    unfold runMain
    rw [mainLoop_catalog backend _ entries 0 n]
    cases hget : entries[n]? with
    | none => rfl
    | some e =>
      rw [option_map_some,
        entryStep_untouched backend _ (0 + n) e (Or.inr (hall n e hget))]

/-- Claim C10, witness: a run over a catalog whose only entry is the
skipped placeholder `%d` writes no progress and no catalog and changes
nothing. -/
theorem c10_witness :
    (∀ (j : Nat) (e : Entry), [entryPercentD][j]? = some e →
      e.msgid.isEmpty = true ∨ classifierSkip e.msgid = true) ∧
    ((runMain backendBonjour none [entryPercentD]).saves = [] ∧
      (runMain backendBonjour none [entryPercentD]).catalog = [entryPercentD]) := by
  have hyp : ∀ (j : Nat) (e : Entry), [entryPercentD][j]? = some e →
      e.msgid.isEmpty = true ∨ classifierSkip e.msgid = true := by
    intro j e h
    cases j with
    | zero =>
      rw [List.getElem?_cons_zero] at h
      have he : entryPercentD = e := Option.some.inj h
      right
      rw [← he]
      decide
    | succ n =>
      rw [List.getElem?_cons_succ] at h
      simp at h
  exact ⟨hyp, (c10_saves_only_processed backendBonjour none [entryPercentD]).2 hyp⟩

end LocoTranslator
